import Mathlib

/-!
Shallow embedding of the notus key-value store (crate `notus`, files
`src/datastore.rs`, `src/file_ops.rs`, `src/nutos.rs`), together with proofs
about its observable behaviour.

Modelling conventions:
* Machine bytes are `Nat`; keys and values are byte lists (`List Nat`).
* `RawKey(String, Vec<u8>)` is serialized with bincode before being used as a
  buffer/data-file key.  bincode serialization of a `(String, Vec<u8>)` pair is
  injective and a round trip (`deserialize (serialize x) = x`), so the
  serialized key is modelled by the pair itself (`RKey`).
* `BTreeMap` is modelled by an association list sorted strictly by key;
  `HashMap` by an association list with unspecified (insertion) order.
* File contents are in-memory lists; byte offsets in a data file are modelled
  by record indices (`seek(End)`/`read_at` address exactly the record
  boundaries, so the two are in bijection).
* Fallible operations return `Except NErr`, mirroring `Result<_, NotusError>`.
-/

deriving instance DecidableEq for Except

/-- Keys as byte sequences (`Vec<u8>`), compared lexicographically. -/
abbrev Key := List Nat

/-- Values as byte sequences. -/
abbrev Value := List Nat

/-- Column name (`RawKey.0`); `DEFAULT_INDEX = "default"`. -/
abbrev Column := String

/-- The bincode-serialized `RawKey`, modelled as the (column, key) pair,
since serialization is injective and round-trips. -/
abbrev RKey := Column × Key

/-- Model of `DEFAULT_INDEX` from `datastore.rs`. -/
def DEFAULT_INDEX : Column := "default"

/-- Error kinds, from `errors.rs` (`NotusError`). Payloads are dropped. -/
inductive NErr where
  | ioError
  | utf8Error
  | fsExtraError
  | corruptValue
  | mergeError
  | lockFailed
  | rwLockPoison
  | unknown
deriving DecidableEq, Repr

/-- Modelled from the spec: `schema.rs` is absent from src/.  Byte length of
the bincode serialization of a `RawKey` (u64 length tag + column bytes + u64
length tag + key bytes; ASCII column names, so chars = bytes). -/
def rkSize (rk : RKey) : Nat := 8 + rk.1.length + 8 + rk.2.length

/-- Modelled from the spec: `schema.rs` is absent from src/.  Stand-in for the
CRC32 computed over (timestamp, sizes, key bytes, value bytes); only the
equality between a stored and a recomputed checksum matters to the claims. -/
def crcOf (t : Nat) (rk : RKey) (v : Value) : Nat :=
  (t * 3 + rkSize rk * 5 + rk.2.foldl (fun a b => a + b) 0 * 7 +
    v.foldl (fun a b => a + b) 0 * 11 + v.length * 13) % 4294967296

/-- Modelled from the spec: `schema.rs` is absent from src/.  A `DataRecord`
appended to a `.data` file: stored CRC, timestamp, serialized key, value. -/
structure DataEntry where
  crc : Nat
  timestamp : Nat
  key : RKey
  value : Value
deriving DecidableEq, Repr

/-- Model of `DataEntry::new(key, value)` (timestamp modelled as 0). -/
def DataEntry.new (rk : RKey) (v : Value) : DataEntry :=
  { crc := crcOf 0 rk v, timestamp := 0, key := rk, value := v }

/-- Model of `DataEntry::check_crc`: recompute the checksum and compare with the
stored field. -/
def checkCrc (e : DataEntry) : Bool :=
  e.crc == crcOf e.timestamp e.key e.value

/-- Modelled from the spec: `schema.rs` is absent from src/.  A `HintRecord`:
serialized key, sizes, data offset, tombstone flag. -/
structure HintEntry where
  key : RKey
  keySize : Nat
  valueSize : Nat
  pos : Nat
  deleted : Bool
deriving DecidableEq, Repr

/-- Model of `HintEntry::from(entry, data_entry_position)`: a live hint. -/
def HintEntry.live (rk : RKey) (v : Value) (pos : Nat) : HintEntry :=
  { key := rk, keySize := rkSize rk, valueSize := v.length, pos := pos,
    deleted := false }

/-- Model of `HintEntry::tombstone(key)`: tombstone flag set, value size 0, offset
ignored. -/
def HintEntry.tomb (rk : RKey) : HintEntry :=
  { key := rk, keySize := rkSize rk, valueSize := 0, pos := 0, deleted := true }

/-- Model of `KeyDirEntry` from `datastore.rs`: on-disk location of a key. -/
structure KeyDirEntry where
  fileId : Nat
  keySize : Nat
  valueSize : Nat
  pos : Nat
deriving DecidableEq, Repr

/-- Model of `Index` from `datastore.rs`: keydir state of a key. -/
inductive Index where
  | persisted (e : KeyDirEntry)
  | inBuffer
deriving DecidableEq, Repr

/-! ### Unordered association lists (the `HashMap` buffer, `files_dir` lookup) -/

/-- Model of `HashMap::insert` (replace in place, new keys appended). -/
def aInsert {α β : Type} [DecidableEq α] (k : α) (v : β) :
    List (α × β) → List (α × β)
  | [] => [(k, v)]
  | (k2, v2) :: t => if k2 = k then (k2, v) :: t else (k2, v2) :: aInsert k v t

/-- Model of `HashMap::remove`. -/
def aRemove {α β : Type} [DecidableEq α] (k : α) :
    List (α × β) → List (α × β)
  | [] => []
  | (k2, v2) :: t => if k2 = k then t else (k2, v2) :: aRemove k t

/-- Model of `HashMap::get`. -/
def aLookup {α β : Type} [DecidableEq α] (k : α) :
    List (α × β) → Option β
  | [] => none
  | (k2, v2) :: t => if k2 = k then some v2 else aLookup k t

/-- In-place update of one slot of an association list. -/
def aUpdate {α β : Type} [DecidableEq α] (k : α) (f : β → β) :
    List (α × β) → List (α × β)
  | [] => []
  | (k2, v2) :: t => if k2 = k then (k2, f v2) :: t else (k2, v2) :: aUpdate k f t

/-! ### Byte-wise lexicographic order (`Ord` on `Vec<u8>`) -/

/-- Strict lexicographic comparison of byte sequences, as `Vec<u8>: Ord`. -/
def keyLtb : Key → Key → Bool
  | [], [] => false
  | [], _ :: _ => true
  | _ :: _, [] => false
  | a :: as_, b :: bs => decide (a < b) || (decide (a = b) && keyLtb as_ bs)

/-! ### Sorted association lists keyed by byte sequences (`BTreeMap<Vec<u8>, _>`) -/

/-- Model of `BTreeMap::insert` on a sorted association list. -/
def kInsert {β : Type} (k : Key) (v : β) :
    List (Key × β) → List (Key × β)
  | [] => [(k, v)]
  | (k2, v2) :: t =>
    if keyLtb k k2 then (k, v) :: (k2, v2) :: t
    else if k = k2 then (k, v) :: t
    else (k2, v2) :: kInsert k v t

/-- Model of `BTreeMap::remove` on a sorted association list. -/
def kRemove {β : Type} (k : Key) : List (Key × β) → List (Key × β)
  | [] => []
  | (k2, v2) :: t => if k2 = k then t else (k2, v2) :: kRemove k t

/-- Model of `BTreeMap::get` on a sorted association list. -/
def kLookup {β : Type} (k : Key) : List (Key × β) → Option β
  | [] => none
  | (k2, v2) :: t => if k2 = k then some v2 else kLookup k t

/-! ### The keydir multimap (`MultiMap<String, Vec<u8>, Index>`) -/

/-- Model of the underlying type of `KeysDir`: `BTreeMap<String, BTreeMap<Vec<u8>, Index>>`
(only the per-column content matters to the claims, so the outer map is an
unordered association list). -/
abbrev KeysDirT := List (Column × List (Key × Index))

/-- Outer-map lookup of the `BTreeMap` of one column. -/
def lookupColumn (c : Column) : KeysDirT → Option (List (Key × Index))
  | [] => none
  | (c2, im) :: t => if c2 = c then some im else lookupColumn c t

/-- Model of `KeysDir::insert` / `partial_insert` (the `Index` argument decides which):
`entry(index).or_insert(BTreeMap::new())` then insert into the inner map. -/
def mmInsertIdx (c : Column) (k : Key) (idx : Index) : KeysDirT → KeysDirT
  | [] => [(c, [(k, idx)])]
  | (c2, im) :: t =>
    if c2 = c then (c2, kInsert k idx im) :: t
    else (c2, im) :: mmInsertIdx c k idx t

/-- Model of `KeysDir::remove`: remove from the inner map of the column when the column
exists (an empty inner map is left in place, as in the source). -/
def mmRemove (c : Column) (k : Key) : KeysDirT → KeysDirT
  | [] => []
  | (c2, im) :: t =>
    if c2 = c then (c2, kRemove k im) :: t
    else (c2, im) :: mmRemove c k t

/-- Model of `KeysDir::keys(index)`: the keys of the column in map order. -/
def mmKeys (c : Column) (m : KeysDirT) : List Key :=
  match lookupColumn c m with
  | none => []
  | some im => im.map Prod.fst

/-- Model of `KeysDir::get`: `Some` only for a `Persisted` entry. -/
def mmGetEntry (c : Column) (k : Key) (m : KeysDirT) : Option KeyDirEntry :=
  match lookupColumn c m with
  | none => none
  | some im =>
    match kLookup k im with
    | none => none
    | some (.persisted e) => some e
    | some .inBuffer => none

/-- Model of `KeysDir::contains`: membership in the inner map of the column, either state. -/
def mmContains (c : Column) (k : Key) (m : KeysDirT) : Bool :=
  match lookupColumn c m with
  | none => false
  | some im => (kLookup k im).isSome

/-- Model of `KeysDir::prefix`: `range(p..)` followed by `take_while(starts_with p)`
on the sorted inner map. -/
def mmPfx (c : Column) (p : Key) (m : KeysDirT) : List Key :=
  match lookupColumn c m with
  | none => []
  | some im =>
    ((im.dropWhile (fun e => keyLtb e.1 p)).takeWhile
      (fun e => p.isPrefixOf e.1)).map Prod.fst

/-- Model of `KeysDir::range` for an inclusive `lo..=hi` bound on the sorted inner
map (one representative shape of `RangeBounds`). -/
def mmRange (c : Column) (lo hi : Key) (m : KeysDirT) : List Key :=
  match lookupColumn c m with
  | none => []
  | some im =>
    ((im.dropWhile (fun e => keyLtb e.1 lo)).takeWhile
      (fun e => !keyLtb hi e.1)).map Prod.fst

/-! ### Segment pairs and the datastore -/

/-- A segment pair (`FilePair`): the `.data` records and, when the `.hint`
file exists on disk, its records.  `hintF = none` models a missing `.hint`
sibling (in `fetch_file_pairs` its path stays `Default::default()`, and
`File::open` on it fails). -/
structure FPair where
  dataF : List DataEntry
  hintF : Option (List HintEntry)
deriving DecidableEq, Repr

/-- A freshly created pair (`create_new_file_pair`): both files empty. -/
def emptyPair : FPair := { dataF := [], hintF := some [] }

def fpAppendData (e : DataEntry) (fp : FPair) : FPair :=
  { fp with dataF := fp.dataF ++ [e] }

def fpAppendHint (h : HintEntry) (fp : FPair) : FPair :=
  { fp with hintF := some (fp.hintF.getD [] ++ [h]) }

/-- Model of `DataStore` (the `notus` revision): active pair id, the `files_dir`
map, the keydir, and the write buffer.  The file contents of the active pair are
addressed through `filesDir` (on disk they are one and the same file). -/
structure DataStore where
  activeId : Nat
  filesDir : List (Nat × FPair)
  keysDir : KeysDirT
  buffer : List (RKey × Value)
deriving DecidableEq, Repr

/-- Length of the active data file: the next append position. -/
def activeDataLen (s : DataStore) : Nat :=
  ((aLookup s.activeId s.filesDir).getD emptyPair).dataF.length

/-- Apply an update to the files of the active pair. -/
def updActive (f : FPair → FPair) (s : DataStore) : DataStore :=
  { s with filesDir := aUpdate s.activeId f s.filesDir }

/-- Model of `ActiveFilePair::write(entry)`: append the data record, append the
matching hint record, return the `KeyDirEntry` for the new record. -/
def dsAppend (s : DataStore) (rk : RKey) (v : Value) :
    KeyDirEntry × DataStore :=
  let pos := activeDataLen s
  let e := DataEntry.new rk v
  let h := HintEntry.live rk v pos
  (⟨s.activeId, h.keySize, h.valueSize, pos⟩,
    updActive (fun fp => fpAppendHint h (fpAppendData e fp)) s)

/-- Model of `DataStore::put`: insert into the buffer, mark the keydir `InBuffer`. -/
def dsPut (s : DataStore) (rk : RKey) (v : Value) : DataStore :=
  { s with
    buffer := aInsert rk v s.buffer
    keysDir := mmInsertIdx rk.1 rk.2 .inBuffer s.keysDir }

/-- Model of `DataStore::get`: buffer first; else the `Persisted` keydir entry; the
segment is looked up in `files_dir` (`None` when absent); `read` decodes the
record at the stored position and verifies the CRC. -/
def dsGet (s : DataStore) (rk : RKey) : Except NErr (Option Value) :=
  match aLookup rk s.buffer with
  | some v => .ok (some v)
  | none =>
    match mmGetEntry rk.1 rk.2 s.keysDir with
    | none => .ok none
    | some kde =>
      match aLookup kde.fileId s.filesDir with
      | none => .ok none
      | some fp =>
        match fp.dataF.get? kde.pos with
        | none => .error .ioError
        | some e => if checkCrc e then .ok (some e.value) else .error .corruptValue

/-- Model of `DataStore::delete`: remove from the buffer, append a tombstone hint to
the active pair, remove from the keydir.  No existence check is made. -/
def dsDelete (s : DataStore) (rk : RKey) : Except NErr Unit × DataStore :=
  let s1 := { s with buffer := aRemove rk s.buffer }
  let s2 := updActive (fpAppendHint (HintEntry.tomb rk)) s1
  (.ok (), { s2 with keysDir := mmRemove rk.1 rk.2 s2.keysDir })

/-- Model of `DataStore::contains`: buffer membership, else keydir membership. -/
def dsContains (s : DataStore) (rk : RKey) : Except NErr Bool :=
  if (aLookup rk s.buffer).isSome then .ok true
  else .ok (mmContains rk.1 rk.2 s.keysDir)

/-- Model of `DataStore::keys(column)`. -/
def dsKeys (c : Column) (s : DataStore) : List Key := mmKeys c s.keysDir

/-- Model of `DataStore::range(column, lo..=hi)`. -/
def dsRange (c : Column) (lo hi : Key) (s : DataStore) : List Key :=
  mmRange c lo hi s.keysDir

/-- Model of `DataStore::prefix(column, p)`. -/
def dsPfx (c : Column) (p : Key) (s : DataStore) : List Key :=
  mmPfx c p s.keysDir

/-- The loop body of `DataStore::flush`: append each drained entry to the
active pair and move its keydir entry to `Persisted`. -/
def flushList : List (RKey × Value) → DataStore → DataStore
  | [], s => s
  | (rk, v) :: rest, s =>
    let (kde, s2) := dsAppend s rk v
    flushList rest { s2 with keysDir := mmInsertIdx rk.1 rk.2 (.persisted kde) s2.keysDir }

/-- Model of `DataStore::flush` on the success path: `buffer.drain()` empties the
buffer and every entry is appended and indexed. -/
def dsFlush (s : DataStore) : DataStore :=
  flushList s.buffer { s with buffer := [] }

/-- Model of `DataStore::flush` when the `failIdx`-th append fails with an I/O error:
the drained entries before it are appended and indexed; the failing entry and
the tail were already removed from (or are dropped with) the `drain()`
iterator, so the buffer ends empty either way. -/
def flushFailList (failIdx : Nat) :
    List (RKey × Value) → Nat → DataStore → Except NErr Unit × DataStore
  | [], _, s => (.ok (), s)
  | (rk, v) :: rest, i, s =>
    if i = failIdx then (.error .ioError, s)
    else
      let (kde, s2) := dsAppend s rk v
      flushFailList failIdx rest (i + 1)
        { s2 with keysDir := mmInsertIdx rk.1 rk.2 (.persisted kde) s2.keysDir }

/-- Model of `DataStore::flush` with an injected append failure at index `failIdx` of
the drain order. -/
def dsFlushFail (failIdx : Nat) (s : DataStore) : Except NErr Unit × DataStore :=
  flushFailList failIdx s.buffer 0 { s with buffer := [] }

/-! ### Hint replay and `open` -/

/-- Model of `FilePair::fetch_hint_entries` body: tombstone hints remove the key,
live hints install a `Persisted` entry pointing into this file. -/
def replayHints (fid : Nat) : List HintEntry → KeysDirT → KeysDirT
  | [], kd => kd
  | h :: t, kd =>
    if h.deleted then replayHints fid t (mmRemove h.key.1 h.key.2 kd)
    else replayHints fid t
      (mmInsertIdx h.key.1 h.key.2
        (.persisted ⟨fid, h.keySize, h.valueSize, h.pos⟩) kd)

/-- Model of `KeysDir::new`: replay the hint file of every pair in ascending file-id
order; `File::open` on a missing hint file fails with an I/O error. -/
def keysDirGo : List (Nat × FPair) → KeysDirT → Except NErr KeysDirT
  | [], kd => .ok kd
  | (fid, fp) :: rest, kd =>
    match fp.hintF with
    | none => .error .ioError
    | some hs => keysDirGo rest (replayHints fid hs kd)

/-- Model of `DataStore::open` over an already-discovered directory: create a fresh
active pair (its id is larger than every existing id, so it sorts last),
fetch the pairs, replay all hints into a fresh keydir. -/
def openFromDisk (disk : List (Nat × FPair)) (newId : Nat) :
    Except NErr DataStore :=
  let files := disk ++ [(newId, emptyPair)]
  match keysDirGo files [] with
  | .error e => .error e
  | .ok kd =>
    .ok { activeId := newId, filesDir := files, keysDir := kd, buffer := [] }

/-- The state right after `DataStore::open` on an empty directory. -/
def fresh0 : DataStore :=
  { activeId := 0, filesDir := [(0, emptyPair)], keysDir := [], buffer := [] }

/-! ### Merge -/

/-- The inner loop of `DataStore::merge` over the hints of one sealed file: a hint
whose key still resolves to this file is re-read, written to the merged pair
(tracked by its record count `mLen`; the merged pair is not inserted into
`files_dir`), and the keydir is repointed at the merged pair. -/
def mergeHints (mId fid : Nat) (fp : FPair) :
    List HintEntry → Nat → KeysDirT → Except NErr (Nat × KeysDirT)
  | [], mLen, kd => .ok (mLen, kd)
  | h :: t, mLen, kd =>
    match mmGetEntry h.key.1 h.key.2 kd with
    | none => mergeHints mId fid fp t mLen kd
    | some kde =>
      if kde.fileId = fid then
        match fp.dataF.get? h.pos with
        | none => .error .ioError
        | some e =>
          if checkCrc e then
            mergeHints mId fid fp t (mLen + 1)
              (mmInsertIdx h.key.1 h.key.2
                (.persisted ⟨mId, rkSize e.key, e.value.length, mLen⟩) kd)
          else .error .corruptValue
      else mergeHints mId fid fp t mLen kd

/-- The outer loop of `DataStore::merge` over `files_dir` in ascending
order, skipping the active pair. -/
def mergeFiles (mId aId : Nat) :
    List (Nat × FPair) → Nat → KeysDirT → Except NErr (Nat × KeysDirT)
  | [], mLen, kd => .ok (mLen, kd)
  | (fid, fp) :: rest, mLen, kd =>
    if fid = aId then mergeFiles mId aId rest mLen kd
    else
      match fp.hintF with
      | none => .error .ioError
      | some hs =>
        match mergeHints mId fid fp hs mLen kd with
        | .error e => .error e
        | .ok (mLen2, kd2) => mergeFiles mId aId rest mLen2 kd2

/-- Model of `DataStore::merge` with fresh merged-pair id `mId`: only the keydir is
updated; `files_dir` and the buffer are untouched (the merged pair is never
inserted into `files_dir`; on-disk deletion of the removed segments does not
change the in-memory map either). -/
def dsMerge (s : DataStore) (mId : Nat) : Except NErr DataStore :=
  match mergeFiles mId s.activeId s.filesDir 0 s.keysDir with
  | .error e => .error e
  | .ok (_, kd) => .ok { s with keysDir := kd }

/-! ### The `Notus` facade (`nutos.rs`) and its iterator -/

/-- Model of `Notus::put`: no empty-key check; keyed under `DEFAULT_INDEX`. -/
def notusPut (s : DataStore) (k : Key) (v : Value) : DataStore :=
  dsPut s (DEFAULT_INDEX, k) v

/-- Model of `Notus::get`: the empty key short-circuits to `Ok(None)`. -/
def notusGet (s : DataStore) (k : Key) : Except NErr (Option Value) :=
  if k = [] then .ok none else dsGet s (DEFAULT_INDEX, k)

/-- Model of `Notus::contains`: the empty key short-circuits to `Ok(false)`. -/
def notusContains (s : DataStore) (k : Key) : Except NErr Bool :=
  if k = [] then .ok false else dsContains s (DEFAULT_INDEX, k)

/-- Model of `Notus::delete`: the empty key short-circuits to `Ok(())`. -/
def notusDelete (s : DataStore) (k : Key) : Except NErr Unit × DataStore :=
  if k = [] then (.ok (), s) else dsDelete s (DEFAULT_INDEX, k)

/-- Model of `DBIterator`: a keys snapshot taken at construction plus a cursor. -/
structure DBIter where
  column : Column
  inner : List Key
  cursor : Nat
deriving DecidableEq, Repr

/-- Model of `DBIterator::new(column, store)`. -/
def iterOfKeys (c : Column) (s : DataStore) : DBIter :=
  { column := c, inner := dsKeys c s, cursor := 0 }

/-- Model of `DBIterator::next`: point lookup of the snapshot key at the cursor; any
outcome other than `Ok(Some _)` yields `None` with the cursor unmoved. -/
def iterNext (store : DataStore) (it : DBIter) :
    Option (Except NErr (Key × Value)) × DBIter :=
  match it.inner.get? it.cursor with
  | none => (none, it)
  | some k =>
    match dsGet store (it.column, k) with
    | .ok (some v) => (some (.ok (k, v)), { it with cursor := it.cursor + 1 })
    | _ => (none, it)

/-- Model of `DBIterator::next_back`: position `len - 1 - cursor` via two checked
subtractions; the same lookup discipline as `next`. -/
def iterNextBack (store : DataStore) (it : DBIter) :
    Option (Except NErr (Key × Value)) × DBIter :=
  if it.inner.length = 0 then (none, it)
  else if it.inner.length - 1 < it.cursor then (none, it)
  else
    match it.inner.get? (it.inner.length - 1 - it.cursor) with
    | none => (none, it)
    | some k =>
      match dsGet store (it.column, k) with
      | .ok (some v) => (some (.ok (k, v)), { it with cursor := it.cursor + 1 })
      | _ => (none, it)

/-! ### Operation sequences and the last-write-wins specification -/

/-- One datastore operation for the reopen round-trip claims. -/
inductive Op where
  | put (rk : RKey) (v : Value)
  | del (rk : RKey)
deriving DecidableEq, Repr

/-- Execute one operation (the state component of `put` / `delete`). -/
def applyOp (s : DataStore) : Op → DataStore
  | .put rk v => dsPut s rk v
  | .del rk => (dsDelete s rk).2

/-- Execute a sequence of operations. -/
def runOps (ops : List Op) (s : DataStore) : DataStore := ops.foldl applyOp s

/-- The last-write-wins fold of an operation sequence, per key: the latest
`put` wins, a latest `delete` clears (this is the specification side of the
round-trip claim, written from the words of the claim itself). -/
def lwwFrom (i : Option Value) (rk : RKey) (ops : List Op) : Option Value :=
  ops.foldl
    (fun acc op =>
      match op with
      | .put rk2 v => if rk2 = rk then some v else acc
      | .del rk2 => if rk2 = rk then none else acc) i

/-- Last-write-wins lookup from an empty initial state. -/
def lwwLookup (ops : List Op) (rk : RKey) : Option Value := lwwFrom none rk ops

/-! ### Proof-side definitions and concrete stores -/

/-- The keys of an association list are pairwise distinct. -/
def keysNodup {α β : Type} (l : List (α × β)) : Prop :=
  (l.map Prod.fst).Nodup

/-- The sortedness invariant of a `BTreeMap` model: keys strictly ascending. -/
def sortedK {β : Type} (l : List (Key × β)) : Prop :=
  l.Pairwise (fun a b => keyLtb a.1 b.1 = true)

/-- Well-formedness of a keydir: every column map is sorted. -/
def MMWF (m : KeysDirT) : Prop :=
  ∀ c im, lookupColumn c m = some im → sortedK im

/-- The data records appended by a successful flush of buffer `bs`. -/
def entriesOf (bs : List (RKey × Value)) : List DataEntry :=
  bs.map (fun e => DataEntry.new e.1 e.2)

/-- The live hints appended by a successful flush of buffer `bs`, starting
at data position `n`. -/
def livesFrom (n : Nat) : List (RKey × Value) → List HintEntry
  | [] => []
  | (rk, v) :: t => HintEntry.live rk v n :: livesFrom (n + 1) t

/-- First-match position lookup in an association list. -/
def pFind (rk : RKey) : List (RKey × Value) → Option (Nat × Value)
  | [] => none
  | (rk2, v) :: t =>
    if rk2 = rk then some (0, v)
    else (pFind rk t).map (fun jw => (jw.1 + 1, jw.2))

/-- Shape of a store during the first session on an empty directory: one
active pair holding no data records and only tombstone hints, and a buffer
without duplicate keys. -/
def freshInv (s : DataStore) : Prop :=
  s.activeId = 0 ∧ keysNodup s.buffer ∧
    ∃ ts : List HintEntry,
      s.filesDir = [(0, { dataF := [], hintF := some ts })] ∧
      ∀ h ∈ ts, h.deleted = true

/-- A store holding `[97] ↦ [1]` persisted in sealed segment 0, reopened with
active segment 1 (session one: put, close; session two: open). -/
def c2Store : DataStore :=
  ((openFromDisk (dsFlush (runOps [.put (DEFAULT_INDEX, [97]) [1]] fresh0)).filesDir
    1).toOption).getD fresh0

/-- A fresh store with two buffered puts, `[97] ↦ [1]` and `[98] ↦ [2]`. -/
def c3Store : DataStore :=
  runOps [.put (DEFAULT_INDEX, [97]) [1], .put (DEFAULT_INDEX, [98]) [2]] fresh0

/-- A fresh store with three buffered puts `[97] [98] [99]`. -/
def c5Pre : DataStore :=
  runOps [.put (DEFAULT_INDEX, [97]) [1], .put (DEFAULT_INDEX, [98]) [2],
    .put (DEFAULT_INDEX, [99]) [3]] fresh0

/-- The keys snapshot of the iterator, taken before the delete. -/
def c5Snap : List Key := dsKeys DEFAULT_INDEX c5Pre

/-- The store after `[98]` is deleted (between snapshot and lookup). -/
def c5Store : DataStore := (dsDelete c5Pre (DEFAULT_INDEX, [98])).2

/-- The iterator over the pre-delete snapshot. -/
def c5Iter0 : DBIter := { column := DEFAULT_INDEX, inner := c5Snap, cursor := 0 }

/-- A reverse iterator over the pre-delete snapshot whose next-back position
(`len - 1 - cursor = 1`) lands on the deleted key `[98]`. -/
def c5IterB : DBIter := { column := DEFAULT_INDEX, inner := c5Snap, cursor := 1 }

/-- A directory holding one segment whose `.data` file exists but whose
`.hint` sibling is missing. -/
def c7Disk : List (Nat × FPair) :=
  [(0, { dataF := [DataEntry.new (DEFAULT_INDEX, [97]) [1]], hintF := none })]

/-- A store with `[97] ↦ [5]` persisted in segment 0 (put, close, reopen). -/
def c4Store : DataStore :=
  ((openFromDisk (dsFlush (runOps [.put (DEFAULT_INDEX, [97]) [5]] fresh0)).filesDir
    1).toOption).getD fresh0

/-- A concrete sorted keydir for the C8 witness. -/
def c8Map : KeysDirT :=
  [(DEFAULT_INDEX, [([1], .inBuffer), ([1, 2], .inBuffer), ([2], .inBuffer)])]

/-! ### Lemmas about the byte-wise order -/

theorem keyLtb_irrefl (k : Key) : keyLtb k k = false := by
  induction k with
  | nil => rfl
  | cons a t ih => simp [keyLtb, ih]

theorem keyLtb_trans (a : Key) :
    ∀ b c, keyLtb a b = true → keyLtb b c = true → keyLtb a c = true := by
  induction a with
  | nil =>
    intro b c h1 h2
    cases b with
    | nil => simp [keyLtb] at h1
    | cons y bs =>
      cases c with
      | nil => simp [keyLtb] at h2
      | cons z cs => simp [keyLtb]
  | cons x as_ ih =>
    intro b c h1 h2
    cases b with
    | nil => simp [keyLtb] at h1
    | cons y bs =>
      cases c with
      | nil => simp [keyLtb] at h2
      | cons z cs =>
        simp [keyLtb] at h1 h2 ⊢
        rcases h1 with h1 | ⟨rfl, h1⟩
        · rcases h2 with h2 | ⟨rfl, h2⟩
          · exact Or.inl (Nat.lt_trans h1 h2)
          · exact Or.inl h1
        · rcases h2 with h2 | ⟨rfl, h2⟩
          · exact Or.inl h2
          · exact Or.inr ⟨rfl, ih bs cs h1 h2⟩

theorem keyLtb_antisymm (a : Key) :
    ∀ b, keyLtb a b = false → keyLtb b a = false → a = b := by
  induction a with
  | nil =>
    intro b h1 _
    cases b with
    | nil => rfl
    | cons y bs => simp [keyLtb] at h1
  | cons x as_ ih =>
    intro b h1 h2
    cases b with
    | nil => simp [keyLtb] at h2
    | cons y bs =>
      simp [keyLtb] at h1 h2
      obtain ⟨h1a, h1b⟩ := h1
      obtain ⟨h2a, h2b⟩ := h2
      have hxy : x = y := Nat.le_antisymm h2a h1a
      subst hxy
      rw [ih bs (h1b rfl) (h2b rfl)]

theorem keyLtb_asymm {a b : Key} (h : keyLtb a b = true) : keyLtb b a = false := by
  by_contra h2
  have h3 : keyLtb b a = true := by
    cases h4 : keyLtb b a with
    | false => exact absurd h4 h2
    | true => rfl
  have := keyLtb_trans a b a h h3
  rw [keyLtb_irrefl] at this
  exact Bool.false_ne_true this

theorem isPrefix_keyLtb (p : Key) :
    ∀ k, p <+: k → keyLtb k p = false := by
  induction p with
  | nil => intro k _; cases k <;> rfl
  | cons x p2 ih =>
    intro k h
    obtain ⟨t, rfl⟩ := h
    simp [keyLtb]
    exact ih (p2 ++ t) (List.prefix_append _ _)

theorem keyLtb_sandwich (p : Key) :
    ∀ a b, keyLtb a p = false → ¬ p <+: a → p <+: b → keyLtb b a = true := by
  induction p with
  | nil => intro a b _ h2 _; exact absurd List.nil_prefix h2
  | cons x p2 ih =>
    intro a b h1 h2 h3
    cases a with
    | nil => simp [keyLtb] at h1
    | cons y a2 =>
      obtain ⟨t, rfl⟩ := h3
      simp [keyLtb] at h1 ⊢
      obtain ⟨h1a, h1b⟩ := h1
      rcases Nat.lt_trichotomy x y with hlt | heq | hgt
      · exact Or.inl hlt
      · subst heq
        refine Or.inr ⟨rfl, ?_⟩
        refine ih a2 (p2 ++ t) (h1b rfl) ?_ (List.prefix_append _ _)
        intro hp
        exact h2 (List.cons_prefix_cons.mpr ⟨rfl, hp⟩)
      · exact absurd hgt (Nat.not_lt.mpr h1a)

/-! ### Lemmas about unordered association lists -/

theorem aLookup_aInsert_self {α β : Type} [DecidableEq α] (k : α) (v : β)
    (l : List (α × β)) : aLookup k (aInsert k v l) = some v := by
  induction l with
  | nil => simp [aInsert, aLookup]
  | cons h t ih =>
    obtain ⟨k2, v2⟩ := h
    by_cases hk : k2 = k
    · subst hk; simp [aInsert, aLookup]
    · simp [aInsert, aLookup, hk, ih]

theorem aLookup_aInsert_ne {α β : Type} [DecidableEq α] {k k2 : α} (v : β)
    (l : List (α × β)) (h : k2 ≠ k) :
    aLookup k2 (aInsert k v l) = aLookup k2 l := by
  induction l with
  | nil => simp [aInsert, aLookup, Ne.symm h]
  | cons hd t ih =>
    obtain ⟨k3, v3⟩ := hd
    by_cases hk : k3 = k
    · subst hk; simp [aInsert, aLookup, Ne.symm h]
    · simp [aInsert, aLookup, hk]
      split <;> simp_all [aLookup]

theorem aLookup_aRemove_ne {α β : Type} [DecidableEq α] {k k2 : α}
    (l : List (α × β)) (h : k2 ≠ k) :
    aLookup k2 (aRemove k l) = aLookup k2 l := by
  induction l with
  | nil => simp [aRemove]
  | cons hd t ih =>
    obtain ⟨k3, v3⟩ := hd
    by_cases hk : k3 = k
    · subst hk; simp [aRemove, aLookup, Ne.symm h]
    · simp [aRemove, aLookup, hk]
      split <;> simp_all

theorem aLookup_eq_none_iff {α β : Type} [DecidableEq α] (k : α)
    (l : List (α × β)) : aLookup k l = none ↔ k ∉ l.map Prod.fst := by
  induction l with
  | nil => simp [aLookup]
  | cons hd t ih =>
    obtain ⟨k2, v2⟩ := hd
    by_cases hk : k2 = k
    · subst hk; simp [aLookup]
    · simp [aLookup, hk, ih, Ne.symm hk]

theorem aLookup_aRemove_self {α β : Type} [DecidableEq α] (k : α)
    (l : List (α × β)) (h : keysNodup l) :
    aLookup k (aRemove k l) = none := by
  induction l with
  | nil => simp [aRemove, aLookup]
  | cons hd t ih =>
    obtain ⟨k2, v2⟩ := hd
    obtain ⟨hn, hnd⟩ := List.nodup_cons.mp h
    by_cases hk : k2 = k
    · subst hk
      simp only [aRemove, if_pos rfl]
      exact (aLookup_eq_none_iff _ _).mpr hn
    · simp [aRemove, aLookup, hk, ih hnd]

theorem keysNodup_aInsert {α β : Type} [DecidableEq α] (k : α) (v : β)
    (l : List (α × β)) (h : keysNodup l) : keysNodup (aInsert k v l) := by
  induction l with
  | nil => simp [aInsert, keysNodup]
  | cons hd t ih =>
    obtain ⟨k2, v2⟩ := hd
    obtain ⟨hn, hnd⟩ := List.nodup_cons.mp h
    by_cases hk : k2 = k
    · subst hk
      simp only [aInsert, if_pos rfl]
      exact List.nodup_cons.mpr ⟨hn, hnd⟩
    · simp only [aInsert, if_neg hk]
      refine List.nodup_cons.mpr ⟨?_, ih hnd⟩
      intro hmem
      have : k2 ∈ (aInsert k v t).map Prod.fst := hmem
      rw [show (aInsert k v t).map Prod.fst = (aInsert k v t).map Prod.fst from rfl] at this
      -- membership in the keys of an insert
      have hkeys : ∀ (t2 : List (α × β)), k2 ∈ (aInsert k v t2).map Prod.fst →
          k2 = k ∨ k2 ∈ t2.map Prod.fst := by
        intro t2
        induction t2 with
        | nil => simp [aInsert]
        | cons hd2 t3 ih3 =>
          obtain ⟨k4, v4⟩ := hd2
          by_cases hk4 : k4 = k
          · subst hk4; simp [aInsert]
          · simp only [aInsert, if_neg hk4, List.map_cons, List.mem_cons]
            rintro (rfl | hmem2)
            · exact Or.inr (by simp)
            · rcases ih3 hmem2 with h4 | h4
              · exact Or.inl h4
              · exact Or.inr (by simp [h4])
      rcases hkeys t this with rfl | hmem2
      · exact hk rfl
      · exact hn hmem2

theorem keysNodup_aRemove {α β : Type} [DecidableEq α] (k : α)
    (l : List (α × β)) (h : keysNodup l) : keysNodup (aRemove k l) := by
  induction l with
  | nil => simp [aRemove, keysNodup]
  | cons hd t ih =>
    obtain ⟨k2, v2⟩ := hd
    obtain ⟨hn, hnd⟩ := List.nodup_cons.mp h
    by_cases hk : k2 = k
    · subst hk; simpa [aRemove] using hnd
    · simp only [aRemove, if_neg hk]
      refine List.nodup_cons.mpr ⟨?_, ih hnd⟩
      intro hmem
      -- keys of aRemove are a subset of the original keys
      have hsub : ∀ (t2 : List (α × β)), (aRemove k t2).map Prod.fst ⊆ t2.map Prod.fst := by
        intro t2
        induction t2 with
        | nil => simp [aRemove]
        | cons hd2 t3 ih3 =>
          obtain ⟨k4, v4⟩ := hd2
          by_cases hk4 : k4 = k
          · subst hk4
            simp only [aRemove, if_pos rfl, List.map_cons]
            exact List.subset_cons_of_subset _ (List.Subset.refl _)
          · simp only [aRemove, if_neg hk4, List.map_cons]
            exact List.cons_subset_cons _ ih3
      exact hn (hsub t hmem)

theorem aLookup_aUpdate_self {α β : Type} [DecidableEq α] (k : α) (f : β → β)
    (l : List (α × β)) : aLookup k (aUpdate k f l) = (aLookup k l).map f := by
  induction l with
  | nil => simp [aUpdate, aLookup]
  | cons hd t ih =>
    obtain ⟨k2, v2⟩ := hd
    by_cases hk : k2 = k
    · subst hk; simp [aUpdate, aLookup]
    · simp [aUpdate, aLookup, hk, ih]

theorem aLookup_aUpdate_ne {α β : Type} [DecidableEq α] {k k2 : α} (f : β → β)
    (l : List (α × β)) (h : k2 ≠ k) :
    aLookup k2 (aUpdate k f l) = aLookup k2 l := by
  induction l with
  | nil => simp [aUpdate]
  | cons hd t ih =>
    obtain ⟨k3, v3⟩ := hd
    by_cases hk : k3 = k
    · subst hk; simp [aUpdate, aLookup, Ne.symm h]
    · simp [aUpdate, aLookup, hk]
      split <;> simp_all

/-! ### Lemmas about sorted association lists -/

theorem sortedK_keysNodup {β : Type} (l : List (Key × β)) (h : sortedK l) :
    keysNodup l := by
  have h2 : l.Pairwise (fun a b => Prod.fst a ≠ Prod.fst b) := by
    refine h.imp ?_
    intro a b hab heq
    rw [heq, keyLtb_irrefl] at hab
    exact Bool.false_ne_true hab
  exact (List.pairwise_map).mpr h2

theorem kInsert_mem_keys {β : Type} (k k2 : Key) (v : β) (l : List (Key × β)) :
    k2 ∈ (kInsert k v l).map Prod.fst ↔ k2 = k ∨ k2 ∈ l.map Prod.fst := by
  induction l with
  | nil => simp [kInsert]
  | cons hd t ih =>
    obtain ⟨k3, v3⟩ := hd
    by_cases hlt : keyLtb k k3
    · simp only [kInsert, if_pos hlt, List.map_cons, List.mem_cons]
    · by_cases heq : k = k3
      · simp only [kInsert, if_neg hlt, if_pos heq, List.map_cons, List.mem_cons]
        subst heq
        tauto
      · simp only [kInsert, if_neg hlt, if_neg heq, List.map_cons, List.mem_cons, ih]
        tauto

theorem kInsert_sorted {β : Type} (k : Key) (v : β) (l : List (Key × β))
    (h : sortedK l) : sortedK (kInsert k v l) := by
  induction l with
  | nil => simp [kInsert, sortedK]
  | cons hd t ih =>
    obtain ⟨k1, v1⟩ := hd
    obtain ⟨hhead, ht⟩ := List.pairwise_cons.mp h
    by_cases hlt : keyLtb k k1 = true
    · simp only [kInsert, if_pos hlt]
      refine List.pairwise_cons.mpr ⟨?_, h⟩
      intro b hb
      rcases List.mem_cons.mp hb with rfl | hb2
      · exact hlt
      · exact keyLtb_trans k k1 b.1 hlt (hhead b hb2)
    · by_cases heq : k = k1
      · subst heq
        simp only [kInsert, if_neg hlt, if_pos rfl]
        exact List.pairwise_cons.mpr ⟨hhead, ht⟩
      · simp only [kInsert, if_neg hlt, if_neg heq]
        refine List.pairwise_cons.mpr ⟨?_, ih ht⟩
        intro b hb
        have hk1k : keyLtb k1 k = true := by
          cases h2 : keyLtb k1 k with
          | true => rfl
          | false =>
            exact absurd (keyLtb_antisymm k1 k h2 (by simpa using hlt)).symm heq
        have hb2 : b.1 = k ∨ b.1 ∈ t.map Prod.fst := by
          exact (kInsert_mem_keys k b.1 v t).mp (List.mem_map_of_mem Prod.fst hb)
        rcases hb2 with hbk | hbt
        · rw [hbk]; exact hk1k
        · obtain ⟨b2, hb2mem, hb2eq⟩ := List.mem_map.mp hbt
          have h3 := hhead b2 hb2mem
          rw [hb2eq] at h3
          exact h3

theorem kRemove_sublist {β : Type} (k : Key) (l : List (Key × β)) :
    (kRemove k l).Sublist l := by
  induction l with
  | nil => simp [kRemove]
  | cons hd t ih =>
    obtain ⟨k2, v2⟩ := hd
    by_cases hk : k2 = k
    · simp only [kRemove, if_pos hk]
      exact List.sublist_cons_of_sublist _ (List.Sublist.refl t)
    · simp only [kRemove, if_neg hk]
      exact List.Sublist.cons₂ _ ih

theorem kRemove_sorted {β : Type} (k : Key) (l : List (Key × β))
    (h : sortedK l) : sortedK (kRemove k l) :=
  List.Pairwise.sublist (kRemove_sublist k l) h

theorem kLookup_kInsert_self {β : Type} (k : Key) (v : β) (l : List (Key × β)) :
    kLookup k (kInsert k v l) = some v := by
  induction l with
  | nil => simp [kInsert, kLookup]
  | cons hd t ih =>
    obtain ⟨k2, v2⟩ := hd
    by_cases hlt : keyLtb k k2
    · simp [kInsert, hlt, kLookup]
    · by_cases heq : k = k2
      · subst heq; simp [kInsert, hlt, kLookup]
      · simp [kInsert, hlt, heq, kLookup, Ne.symm heq, ih]

theorem kLookup_kInsert_ne {β : Type} {k k2 : Key} (v : β) (l : List (Key × β))
    (h : k2 ≠ k) : kLookup k2 (kInsert k v l) = kLookup k2 l := by
  induction l with
  | nil => simp [kInsert, kLookup, Ne.symm h]
  | cons hd t ih =>
    obtain ⟨k3, v3⟩ := hd
    by_cases hlt : keyLtb k k3
    · simp [kInsert, hlt, kLookup, Ne.symm h]
    · by_cases heq : k = k3
      · subst heq; simp [kInsert, hlt, kLookup, Ne.symm h]
      · simp only [kInsert, if_neg hlt, if_neg heq, kLookup]
        split <;> simp_all

theorem kLookup_eq_none_iff {β : Type} (k : Key) (l : List (Key × β)) :
    kLookup k l = none ↔ k ∉ l.map Prod.fst := by
  induction l with
  | nil => simp [kLookup]
  | cons hd t ih =>
    obtain ⟨k2, v2⟩ := hd
    by_cases hk : k2 = k
    · subst hk; simp [kLookup]
    · simp [kLookup, hk, ih, Ne.symm hk]

theorem kLookup_kRemove_ne {β : Type} {k k2 : Key} (l : List (Key × β))
    (h : k2 ≠ k) : kLookup k2 (kRemove k l) = kLookup k2 l := by
  induction l with
  | nil => simp [kRemove]
  | cons hd t ih =>
    obtain ⟨k3, v3⟩ := hd
    by_cases hk : k3 = k
    · subst hk; simp [kRemove, kLookup, Ne.symm h]
    · simp only [kRemove, if_neg hk, kLookup]
      split <;> simp_all

theorem kLookup_kRemove_self {β : Type} (k : Key) (l : List (Key × β))
    (h : keysNodup l) : kLookup k (kRemove k l) = none := by
  induction l with
  | nil => simp [kRemove, kLookup]
  | cons hd t ih =>
    obtain ⟨k2, v2⟩ := hd
    obtain ⟨hn, hnd⟩ := List.nodup_cons.mp h
    by_cases hk : k2 = k
    · subst hk
      simp only [kRemove, if_pos rfl]
      exact (kLookup_eq_none_iff _ _).mpr hn
    · simp only [kRemove, if_neg hk, kLookup, if_neg hk]
      exact ih hnd

/-! ### Lemmas about the keydir multimap -/

theorem lookupColumn_mmInsert_self (c : Column) (k : Key) (idx : Index)
    (m : KeysDirT) :
    lookupColumn c (mmInsertIdx c k idx m) =
      some (kInsert k idx ((lookupColumn c m).getD [])) := by
  induction m with
  | nil => simp [mmInsertIdx, lookupColumn, kInsert]
  | cons hd t ih =>
    obtain ⟨c2, im⟩ := hd
    by_cases hc : c2 = c
    · subst hc; simp [mmInsertIdx, lookupColumn]
    · simp [mmInsertIdx, lookupColumn, hc, ih]

theorem lookupColumn_mmInsert_ne {c c2 : Column} (k : Key) (idx : Index)
    (m : KeysDirT) (h : c2 ≠ c) :
    lookupColumn c2 (mmInsertIdx c k idx m) = lookupColumn c2 m := by
  induction m with
  | nil => simp [mmInsertIdx, lookupColumn, Ne.symm h]
  | cons hd t ih =>
    obtain ⟨c3, im⟩ := hd
    by_cases hc : c3 = c
    · subst hc; simp [mmInsertIdx, lookupColumn, Ne.symm h]
    · simp only [mmInsertIdx, if_neg hc, lookupColumn]
      split <;> simp_all

theorem lookupColumn_mmRemove_self (c : Column) (k : Key) (m : KeysDirT) :
    lookupColumn c (mmRemove c k m) = (lookupColumn c m).map (kRemove k) := by
  induction m with
  | nil => simp [mmRemove, lookupColumn]
  | cons hd t ih =>
    obtain ⟨c2, im⟩ := hd
    by_cases hc : c2 = c
    · subst hc; simp [mmRemove, lookupColumn]
    · simp [mmRemove, lookupColumn, hc, ih]

theorem lookupColumn_mmRemove_ne {c c2 : Column} (k : Key) (m : KeysDirT)
    (h : c2 ≠ c) :
    lookupColumn c2 (mmRemove c k m) = lookupColumn c2 m := by
  induction m with
  | nil => simp [mmRemove]
  | cons hd t ih =>
    obtain ⟨c3, im⟩ := hd
    by_cases hc : c3 = c
    · subst hc; simp [mmRemove, lookupColumn, Ne.symm h]
    · simp only [mmRemove, if_neg hc, lookupColumn]
      split <;> simp_all

/-- Model of `mmKeys` through the column lookup. -/
theorem mmKeys_eq (c : Column) (m : KeysDirT) :
    mmKeys c m = ((lookupColumn c m).getD []).map Prod.fst := by
  unfold mmKeys
  cases lookupColumn c m <;> simp

/-- Model of `mmGetEntry` through the column lookup. -/
theorem mmGetEntry_eq (c : Column) (k : Key) (m : KeysDirT) :
    mmGetEntry c k m =
      match kLookup k ((lookupColumn c m).getD []) with
      | none => none
      | some (.persisted e) => some e
      | some .inBuffer => none := by
  unfold mmGetEntry
  cases lookupColumn c m with
  | none => simp [kLookup]
  | some im => simp

/-- Model of `mmContains` through the column lookup. -/
theorem mmContains_eq (c : Column) (k : Key) (m : KeysDirT) :
    mmContains c k m = (kLookup k ((lookupColumn c m).getD [])).isSome := by
  unfold mmContains
  cases lookupColumn c m with
  | none => simp [kLookup]
  | some im => simp

theorem mmGetEntry_insert_persisted_self (c : Column) (k : Key) (e : KeyDirEntry)
    (m : KeysDirT) :
    mmGetEntry c k (mmInsertIdx c k (.persisted e) m) = some e := by
  rw [mmGetEntry_eq, lookupColumn_mmInsert_self]
  simp [kLookup_kInsert_self]

theorem mmGetEntry_insert_ne {c c2 : Column} {k k2 : Key} (idx : Index)
    (m : KeysDirT) (h : (c2, k2) ≠ (c, k)) :
    mmGetEntry c2 k2 (mmInsertIdx c k idx m) = mmGetEntry c2 k2 m := by
  rw [mmGetEntry_eq, mmGetEntry_eq]
  by_cases hc : c2 = c
  · subst hc
    have hk : k2 ≠ k := by
      intro hk2; exact h (by rw [hk2])
    rw [lookupColumn_mmInsert_self]
    simp only [Option.getD_some]
    rw [kLookup_kInsert_ne _ _ hk]
  · rw [lookupColumn_mmInsert_ne _ _ _ hc]

theorem mmKeys_insert_mem (c c2 : Column) (k k2 : Key) (idx : Index)
    (m : KeysDirT) :
    k2 ∈ mmKeys c2 (mmInsertIdx c k idx m) ↔
      (c2 = c ∧ k2 = k) ∨ k2 ∈ mmKeys c2 m := by
  rw [mmKeys_eq, mmKeys_eq]
  by_cases hc : c2 = c
  · subst hc
    rw [lookupColumn_mmInsert_self]
    simp only [Option.getD_some]
    rw [kInsert_mem_keys]
    simp
  · rw [lookupColumn_mmInsert_ne _ _ _ hc]
    simp [hc]

theorem mmGetEntry_nil (c : Column) (k : Key) : mmGetEntry c k [] = none := rfl

theorem MMWF_nil : MMWF [] := by
  intro c im h
  simp [lookupColumn] at h

theorem MMWF_mmInsert (c : Column) (k : Key) (idx : Index) (m : KeysDirT)
    (h : MMWF m) : MMWF (mmInsertIdx c k idx m) := by
  intro c2 im hlc
  by_cases hc : c2 = c
  · subst hc
    rw [lookupColumn_mmInsert_self] at hlc
    cases hlc
    apply kInsert_sorted
    cases hlc2 : lookupColumn c2 m with
    | none => simp [sortedK]
    | some im2 => simpa using h c2 im2 hlc2
  · rw [lookupColumn_mmInsert_ne _ _ _ hc] at hlc
    exact h c2 im hlc

theorem MMWF_mmRemove (c : Column) (k : Key) (m : KeysDirT)
    (h : MMWF m) : MMWF (mmRemove c k m) := by
  intro c2 im hlc
  by_cases hc : c2 = c
  · subst hc
    rw [lookupColumn_mmRemove_self] at hlc
    cases hlc2 : lookupColumn c2 m with
    | none => rw [hlc2] at hlc; cases hlc
    | some im2 =>
      rw [hlc2] at hlc
      cases hlc
      exact kRemove_sorted _ _ (h c2 im2 hlc2)
  · rw [lookupColumn_mmRemove_ne _ _ hc] at hlc
    exact h c2 im hlc

theorem mmKeys_sorted (c : Column) (m : KeysDirT) (h : MMWF m) :
    (mmKeys c m).Pairwise (fun a b => keyLtb a b = true) := by
  rw [mmKeys_eq]
  cases hlc : lookupColumn c m with
  | none => simp
  | some im =>
    simp only [Option.getD_some]
    rw [List.pairwise_map]
    exact h c im hlc

/-! ### Replay lemmas -/

theorem aLookup_eq_pFind (rk : RKey) (l : List (RKey × Value)) :
    aLookup rk l = (pFind rk l).map Prod.snd := by
  induction l with
  | nil => simp [aLookup, pFind]
  | cons hd t ih =>
    obtain ⟨rk2, v⟩ := hd
    by_cases hk : rk2 = rk
    · simp [aLookup, pFind, hk]
    · simp only [aLookup, pFind, if_neg hk, ih]
      cases pFind rk t <;> simp

theorem pFind_get {rk : RKey} {l : List (RKey × Value)} {j : Nat} {v : Value}
    (h : pFind rk l = some (j, v)) : l.get? j = some (rk, v) := by
  induction l generalizing j with
  | nil => simp [pFind] at h
  | cons hd t ih =>
    obtain ⟨rk2, v2⟩ := hd
    by_cases hk : rk2 = rk
    · simp only [pFind, if_pos hk] at h
      cases h
      simp [hk]
    · simp only [pFind, if_neg hk] at h
      cases hp : pFind rk t with
      | none => rw [hp] at h; cases h
      | some jw =>
        obtain ⟨j2, w⟩ := jw
        rw [hp] at h
        simp at h
        obtain ⟨hj, hw⟩ := h
        subst hw
        rw [← hj]
        simpa using ih hp

theorem pFind_none_iff (rk : RKey) (l : List (RKey × Value)) :
    pFind rk l = none ↔ rk ∉ l.map Prod.fst := by
  induction l with
  | nil => simp [pFind]
  | cons hd t ih =>
    obtain ⟨rk2, v⟩ := hd
    by_cases hk : rk2 = rk
    · simp [pFind, hk]
    · simp only [pFind, if_neg hk, List.map_cons, List.mem_cons, not_or]
      constructor
      · intro h
        have hpn : pFind rk t = none := by
          cases hp : pFind rk t with
          | none => rfl
          | some jw => rw [hp] at h; simp at h
        exact ⟨fun he => hk he.symm, ih.mp hpn⟩
      · rintro ⟨hne, hmem⟩
        rw [ih.mpr hmem]
        rfl

theorem replayHints_append (fid : Nat) (xs ys : List HintEntry) (kd : KeysDirT) :
    replayHints fid (xs ++ ys) kd = replayHints fid ys (replayHints fid xs kd) := by
  induction xs generalizing kd with
  | nil => simp [replayHints]
  | cons h t ih =>
    by_cases hd : h.deleted
    · simp [replayHints, hd, ih]
    · simp [replayHints, hd, ih]

theorem replayHints_deleted_nil (fid : Nat) (ts : List HintEntry)
    (h : ∀ x ∈ ts, x.deleted = true) : replayHints fid ts [] = [] := by
  induction ts with
  | nil => rfl
  | cons x t ih =>
    have hx := h x (by simp)
    have hstep : replayHints fid (x :: t) ([] : KeysDirT) =
        replayHints fid t (mmRemove x.key.1 x.key.2 []) := by
      simp [replayHints, hx]
    rw [hstep, show mmRemove x.key.1 x.key.2 ([] : KeysDirT) = [] from rfl]
    exact ih fun y hy => h y (by simp [hy])

theorem MMWF_replayHints (fid : Nat) (hs : List HintEntry) (kd : KeysDirT)
    (h : MMWF kd) : MMWF (replayHints fid hs kd) := by
  induction hs generalizing kd with
  | nil => exact h
  | cons x t ih =>
    by_cases hd : x.deleted
    · simp only [replayHints, if_pos hd]
      exact ih _ (MMWF_mmRemove _ _ _ h)
    · simp only [replayHints, if_neg hd]
      exact ih _ (MMWF_mmInsert _ _ _ _ h)

theorem replay_lives_getEntry (fid : Nat) (c : Column) (k : Key) :
    ∀ (bs : List (RKey × Value)) (n : Nat) (kd : KeysDirT), keysNodup bs →
    mmGetEntry c k (replayHints fid (livesFrom n bs) kd) =
      match pFind (c, k) bs with
      | some (j, v) => some ⟨fid, rkSize (c, k), v.length, n + j⟩
      | none => mmGetEntry c k kd := by
  intro bs
  induction bs with
  | nil => intro n kd _; simp [livesFrom, replayHints, pFind]
  | cons hd t ih =>
    intro n kd hnd
    obtain ⟨⟨c0, k0⟩, v0⟩ := hd
    obtain ⟨hn0, hnd2⟩ := List.nodup_cons.mp hnd
    have hstep : replayHints fid (livesFrom n (((c0, k0), v0) :: t)) kd =
        replayHints fid (livesFrom (n + 1) t)
          (mmInsertIdx c0 k0
            (.persisted ⟨fid, rkSize (c0, k0), v0.length, n⟩) kd) := by
      simp [livesFrom, replayHints, HintEntry.live]
    rw [hstep]
    by_cases hk : ((c0, k0) : RKey) = (c, k)
    · obtain ⟨rfl, rfl⟩ := (Prod.mk.injEq c0 k0 c k).mp hk
      have hpn : pFind (c0, k0) t = none := by
        rw [pFind_none_iff]
        simpa using hn0
      rw [ih (n + 1) _ hnd2, hpn]
      rw [mmGetEntry_insert_persisted_self]
      simp [pFind]
    · rw [ih (n + 1) _ hnd2]
      cases hp : pFind (c, k) t with
      | none =>
        simp only [pFind, if_neg hk, hp]
        simpa using mmGetEntry_insert_ne _ _ (fun he => hk he.symm)
      | some jw =>
        obtain ⟨j, w⟩ := jw
        simp only [pFind, if_neg hk, hp]
        have harith : n + 1 + j = n + (j + 1) := by omega
        simp [harith]

theorem replay_lives_keys (fid : Nat) (c : Column) (k : Key) :
    ∀ (bs : List (RKey × Value)) (n : Nat) (kd : KeysDirT),
    k ∈ mmKeys c (replayHints fid (livesFrom n bs) kd) ↔
      (c, k) ∈ bs.map Prod.fst ∨ k ∈ mmKeys c kd := by
  intro bs
  induction bs with
  | nil => intro n kd; simp [livesFrom, replayHints]
  | cons hd t ih =>
    intro n kd
    obtain ⟨⟨c0, k0⟩, v0⟩ := hd
    have hstep : replayHints fid (livesFrom n (((c0, k0), v0) :: t)) kd =
        replayHints fid (livesFrom (n + 1) t)
          (mmInsertIdx c0 k0
            (.persisted ⟨fid, rkSize (c0, k0), v0.length, n⟩) kd) := by
      simp [livesFrom, replayHints, HintEntry.live]
    rw [hstep, ih (n + 1), mmKeys_insert_mem]
    simp only [List.map_cons, List.mem_cons]
    constructor
    · rintro (hmem | ⟨rfl, rfl⟩ | hmem)
      · exact Or.inl (Or.inr hmem)
      · exact Or.inl (Or.inl rfl)
      · exact Or.inr hmem
    · rintro ((heq | hmem) | hmem)
      · obtain ⟨h1, h2⟩ := (Prod.mk.injEq c k c0 k0).mp heq
        exact Or.inr (Or.inl ⟨h1, h2⟩)
      · exact Or.inl hmem
      · exact Or.inr (Or.inr hmem)

theorem checkCrc_new (rk : RKey) (v : Value) :
    checkCrc (DataEntry.new rk v) = true := by
  simp [checkCrc, DataEntry.new]

/-! ### Running operation sequences on a fresh store -/

theorem freshInv_fresh0 : freshInv fresh0 := by
  refine ⟨rfl, by simp [fresh0, keysNodup], [], rfl, by simp⟩

theorem freshInv_applyOp (s : DataStore) (op : Op) (h : freshInv s) :
    freshInv (applyOp s op) := by
  obtain ⟨hid, hnd, ts, hfd, hdel⟩ := h
  cases op with
  | put rk v =>
    refine ⟨hid, keysNodup_aInsert _ _ _ hnd, ts, ?_, hdel⟩
    simpa [applyOp, dsPut] using hfd
  | del rk =>
    refine ⟨hid, keysNodup_aRemove _ _ hnd, ts ++ [HintEntry.tomb rk], ?_, ?_⟩
    · simp only [applyOp, dsDelete, updActive]
      rw [hid, hfd]
      simp [aUpdate, fpAppendHint]
    · intro x hx
      rcases List.mem_append.mp hx with hx | hx
      · exact hdel x hx
      · simp at hx
        rw [hx]
        rfl

theorem freshInv_runOps (ops : List Op) :
    ∀ s, freshInv s → freshInv (runOps ops s) := by
  induction ops with
  | nil => intro s h; exact h
  | cons op t ih =>
    intro s h
    exact ih _ (freshInv_applyOp s op h)

/-- The buffer after a run of operations realizes the last-write-wins fold
(starting from the current contents of the buffer). -/
theorem runOps_buffer_lookup (ops : List Op) :
    ∀ (s : DataStore), keysNodup s.buffer → ∀ rk,
      aLookup rk (runOps ops s).buffer = lwwFrom (aLookup rk s.buffer) rk ops := by
  induction ops with
  | nil => intro s _ rk; rfl
  | cons op t ih =>
    intro s hnd rk
    cases op with
    | put rk2 v =>
      have hbuf : (applyOp s (.put rk2 v)).buffer = aInsert rk2 v s.buffer := rfl
      have hnd2 : keysNodup (applyOp s (.put rk2 v)).buffer := by
        rw [hbuf]; exact keysNodup_aInsert _ _ _ hnd
      have := ih (applyOp s (.put rk2 v)) hnd2 rk
      rw [show runOps (Op.put rk2 v :: t) s = runOps t (applyOp s (.put rk2 v)) from rfl]
      rw [this, hbuf]
      by_cases hk : rk2 = rk
      · subst hk
        rw [aLookup_aInsert_self]
        simp [lwwFrom]
      · rw [aLookup_aInsert_ne _ _ (fun he => hk he.symm)]
        simp [lwwFrom, hk]
    | del rk2 =>
      have hbuf : (applyOp s (.del rk2)).buffer = aRemove rk2 s.buffer := rfl
      have hnd2 : keysNodup (applyOp s (.del rk2)).buffer := by
        rw [hbuf]; exact keysNodup_aRemove _ _ hnd
      have := ih (applyOp s (.del rk2)) hnd2 rk
      rw [show runOps (Op.del rk2 :: t) s = runOps t (applyOp s (.del rk2)) from rfl]
      rw [this, hbuf]
      by_cases hk : rk2 = rk
      · subst hk
        rw [aLookup_aRemove_self _ _ hnd]
        simp [lwwFrom]
      · rw [aLookup_aRemove_ne _ (fun he => hk he.symm)]
        simp [lwwFrom, hk]

/-! ### Flushing -/

theorem flushList_spec (bs : List (RKey × Value)) :
    ∀ (s : DataStore) (ds : List DataEntry) (hs : List HintEntry),
      s.activeId = 0 →
      s.filesDir = [(0, { dataF := ds, hintF := some hs })] →
      (flushList bs s).activeId = 0 ∧ (flushList bs s).buffer = s.buffer ∧
      (flushList bs s).filesDir =
        [(0, { dataF := ds ++ entriesOf bs,
               hintF := some (hs ++ livesFrom ds.length bs) })] := by
  induction bs with
  | nil =>
    intro s ds hs hid hfd
    refine ⟨hid, rfl, ?_⟩
    simp [flushList, hfd, entriesOf, livesFrom]
  | cons hd t ih =>
    intro s ds hs hid hfd
    obtain ⟨rk, v⟩ := hd
    have hlen : activeDataLen s = ds.length := by
      simp [activeDataLen, hid, hfd, aLookup]
    have hstep : flushList ((rk, v) :: t) s =
        flushList t
          { s with
            filesDir := [(0, { dataF := ds ++ [DataEntry.new rk v],
                               hintF := some (hs ++ [HintEntry.live rk v ds.length]) })],
            keysDir := mmInsertIdx rk.1 rk.2
              (.persisted ⟨0, rkSize rk, v.length, ds.length⟩) s.keysDir } := by
      simp only [flushList, dsAppend, updActive, hlen, hid, hfd]
      simp [aUpdate, fpAppendData, fpAppendHint, HintEntry.live]
    rw [hstep]
    have hres := ih
      { s with
        filesDir := [(0, { dataF := ds ++ [DataEntry.new rk v],
                           hintF := some (hs ++ [HintEntry.live rk v ds.length]) })],
        keysDir := mmInsertIdx rk.1 rk.2
          (.persisted ⟨0, rkSize rk, v.length, ds.length⟩) s.keysDir }
      (ds ++ [DataEntry.new rk v]) (hs ++ [HintEntry.live rk v ds.length]) hid rfl
    obtain ⟨h1, h2, h3⟩ := hres
    refine ⟨h1, by simpa using h2, ?_⟩
    rw [h3]
    simp only [entriesOf, livesFrom, List.map_cons, List.length_append, List.length_cons,
      List.length_nil, List.append_assoc, List.cons_append, List.nil_append]

/-! ### Stepping lemmas for `dsGet` -/

theorem dsGet_of_buffer (s : DataStore) (rk : RKey) (v : Value)
    (h : aLookup rk s.buffer = some v) : dsGet s rk = .ok (some v) := by
  unfold dsGet
  rw [h]

theorem dsGet_of_no_entry (s : DataStore) (rk : RKey)
    (h1 : aLookup rk s.buffer = none)
    (h2 : mmGetEntry rk.1 rk.2 s.keysDir = none) : dsGet s rk = .ok none := by
  unfold dsGet
  rw [h1, h2]

theorem dsGet_of_entry_no_file (s : DataStore) (rk : RKey) (kde : KeyDirEntry)
    (h1 : aLookup rk s.buffer = none)
    (h2 : mmGetEntry rk.1 rk.2 s.keysDir = some kde)
    (h3 : aLookup kde.fileId s.filesDir = none) : dsGet s rk = .ok none := by
  unfold dsGet
  rw [h1, h2]
  dsimp only
  rw [h3]

theorem dsGet_of_entry_no_record (s : DataStore) (rk : RKey) (kde : KeyDirEntry)
    (fp : FPair)
    (h1 : aLookup rk s.buffer = none)
    (h2 : mmGetEntry rk.1 rk.2 s.keysDir = some kde)
    (h3 : aLookup kde.fileId s.filesDir = some fp)
    (h4 : fp.dataF.get? kde.pos = none) : dsGet s rk = .error .ioError := by
  unfold dsGet
  rw [h1, h2]
  dsimp only
  rw [h3]
  dsimp only
  rw [h4]

theorem dsGet_of_entry (s : DataStore) (rk : RKey) (kde : KeyDirEntry)
    (fp : FPair) (e : DataEntry)
    (h1 : aLookup rk s.buffer = none)
    (h2 : mmGetEntry rk.1 rk.2 s.keysDir = some kde)
    (h3 : aLookup kde.fileId s.filesDir = some fp)
    (h4 : fp.dataF.get? kde.pos = some e) :
    dsGet s rk = if checkCrc e then .ok (some e.value) else .error .corruptValue := by
  unfold dsGet
  rw [h1, h2]
  dsimp only
  rw [h3]
  dsimp only
  rw [h4]

/-- C1: for every finite sequence of put and delete operations applied to a
freshly opened datastore, followed by a close (flush drains the buffer) and a
reopen (hint files replayed in ascending file-id order), the observable
state of the reopened datastore --- `keys()` membership and `get` per key,
over every column --- equals the last-write-wins fold of the sequence, and the
key listing is in ascending byte order. -/
theorem c1_reopen_lww_fold (ops : List Op) (c : Column) (k : Key) :
    openFromDisk ([] : List (Nat × FPair)) 0 = .ok fresh0 ∧
    ∃ r : DataStore,
      openFromDisk (dsFlush (runOps ops fresh0)).filesDir 1 = .ok r ∧
      dsGet r (c, k) = .ok (lwwLookup ops (c, k)) ∧
      (k ∈ dsKeys c r ↔ lwwLookup ops (c, k) ≠ none) ∧
      (dsKeys c r).Pairwise (fun a b => keyLtb a b = true) := by
  refine ⟨rfl, ?_⟩
  obtain ⟨hid, hnd, ts, hfd, hdel⟩ := freshInv_runOps ops fresh0 freshInv_fresh0
  have hflush := flushList_spec (runOps ops fresh0).buffer
    { runOps ops fresh0 with buffer := [] } [] ts hid hfd
  obtain ⟨hfid, hfbuf, hffd⟩ := hflush
  set b := (runOps ops fresh0).buffer with hb
  set kd1 := replayHints 0 (livesFrom 0 b) ([] : KeysDirT) with hkd1
  set fp0 : FPair := { dataF := entriesOf b, hintF := some (ts ++ livesFrom 0 b) } with hfp0
  set rSt : DataStore := ({ activeId := 1, filesDir := [(0, fp0), (1, emptyPair)], keysDir := kd1, buffer := [] } : DataStore) with hrSt
  have hclosedfd : (dsFlush (runOps ops fresh0)).filesDir = [(0, fp0)] := by
    unfold dsFlush
    rw [hfp0]
    simpa using hffd
  have hlww : aLookup (c, k) b = lwwLookup ops (c, k) := by
    have h2 := runOps_buffer_lookup ops fresh0 (by simp [fresh0, keysNodup]) (c, k)
    simpa [fresh0, lwwLookup, aLookup] using h2
  refine ⟨rSt, ?_, ?_, ?_, ?_⟩
  · rw [hclosedfd]
    simp only [openFromDisk]
    have hgo : keysDirGo ([(0, fp0)] ++ [(1, emptyPair)]) [] = .ok kd1 := by
      simp only [List.cons_append, List.nil_append, keysDirGo, hfp0, emptyPair]
      rw [replayHints_append, replayHints_deleted_nil 0 ts hdel]
      simp [replayHints]
    rw [hgo]
    rfl
  · have hbufnone : aLookup ((c, k) : RKey) rSt.buffer = none := rfl
    have hget := replay_lives_getEntry 0 c k b 0 [] hnd
    cases hp : pFind (c, k) b with
    | none =>
      rw [hp] at hget
      have h2 : mmGetEntry c k rSt.keysDir = none := by
        rw [show rSt.keysDir = kd1 from rfl, hget]; rfl
      rw [dsGet_of_no_entry _ _ hbufnone h2]
      rw [← hlww, aLookup_eq_pFind, hp]
      rfl
    | some jw =>
      obtain ⟨j, v⟩ := jw
      rw [hp] at hget
      have h2 : mmGetEntry c k rSt.keysDir = some ⟨0, rkSize (c, k), v.length, 0 + j⟩ := hget
      have h3 : aLookup (0 : Nat) rSt.filesDir = some fp0 := by
        rw [show rSt.filesDir = [(0, fp0), (1, emptyPair)] from rfl]
        simp [aLookup]
      have h4 : fp0.dataF.get? (0 + j) = some (DataEntry.new (c, k) v) := by
        rw [hfp0]
        simp only [entriesOf]
        rw [Nat.zero_add, List.get?_map, pFind_get hp]
        rfl
      have hcall := dsGet_of_entry rSt (c, k)
        ⟨0, rkSize (c, k), v.length, 0 + j⟩ fp0 (DataEntry.new (c, k) v)
        hbufnone h2 h3 h4
      rw [hcall, checkCrc_new]
      rw [← hlww, aLookup_eq_pFind, hp]
      rfl
  · have hkeys := replay_lives_keys 0 c k b 0 []
    have hdk : dsKeys c rSt = mmKeys c kd1 := rfl
    rw [hdk, hkeys]
    rw [← hlww, aLookup_eq_pFind]
    cases hp : pFind (c, k) b with
    | none =>
      have hmem := (pFind_none_iff (c, k) b).mp hp
      simp [mmKeys, hmem, hp, lookupColumn]
    | some jw =>
      have hmem : ((c, k) : RKey) ∈ b.map Prod.fst := by
        by_contra hm
        rw [(pFind_none_iff (c, k) b).mpr hm] at hp
        cases hp
      simp [hmem]
  · have hdk : dsKeys c rSt = mmKeys c kd1 := rfl
    rw [hdk]
    exact mmKeys_sorted c kd1 (MMWF_replayHints 0 _ [] MMWF_nil)

/-! ### Concrete stores for the merge, flush-failure and iterator claims -/

/-- C2 (code bug): `merge()` succeeds and leaves `keys()` unchanged, but the
merged file pair is never inserted into `files_dir`, so `get` of a migrated
key afterwards returns `Ok(None)` instead of its pre-merge value: before the
merge `get([97]) = Ok(Some [1])`, afterwards `Ok(None)`. -/
theorem c2_merge_loses_get :
    dsGet c2Store (DEFAULT_INDEX, [97]) = .ok (some [1]) ∧
    (dsMerge c2Store 2).isOk = true ∧
    (dsMerge c2Store 2).map (fun s => dsKeys DEFAULT_INDEX s) =
      .ok (dsKeys DEFAULT_INDEX c2Store) ∧
    (dsMerge c2Store 2).map (fun s => dsGet s (DEFAULT_INDEX, [97])) =
      .ok (.ok none) := by
  decide

/-- C3 (code bug): when an append fails during `flush`, dropping the
`HashMap::drain` iterator removes every remaining entry from the buffer, so
the undrained tail is lost: with buffer `{[97]↦[1], [98]↦[2]}`, a failure on
the first append leaves the buffer empty (the tail `[98]` is gone, contrary
to the claim), while entries drained before a failure are indeed `Persisted`
in the keydir. -/
theorem c3_flush_failure_drops_tail :
    c3Store.buffer = [((DEFAULT_INDEX, [97]), [1]), ((DEFAULT_INDEX, [98]), [2])] ∧
    (dsFlushFail 0 c3Store).1 = .error .ioError ∧
    (dsFlushFail 0 c3Store).2.buffer = [] ∧
    (dsFlushFail 1 c3Store).1 = .error .ioError ∧
    (dsFlushFail 1 c3Store).2.buffer = [] ∧
    mmGetEntry DEFAULT_INDEX [97] (dsFlushFail 1 c3Store).2.keysDir =
      some ⟨0, rkSize (DEFAULT_INDEX, [97]), 1, 0⟩ := by
  decide

/-- C5 counterexample: `[98]` is deleted between the snapshot and the
point lookup of the iterator; the iterator yields `[97]`, then returns `None` at
`[98]` and keeps returning `None`, even though `[99]` is still live --- the
deleted key is not skipped and the remaining live key is never yielded. -/
theorem c5_deleted_key_halts_iteration :
    c5Snap = [[97], [98], [99]] ∧
    dsGet c5Store (DEFAULT_INDEX, [98]) = .ok none ∧
    dsGet c5Store (DEFAULT_INDEX, [99]) = .ok (some [3]) ∧
    (iterNext c5Store c5Iter0).1 = some (.ok ([97], [1])) ∧
    (iterNext c5Store (iterNext c5Store c5Iter0).2).1 = none ∧
    (iterNext c5Store (iterNext c5Store (iterNext c5Store c5Iter0).2).2).1 = none := by
  decide

/-- C5 amended: a key deleted between snapshot construction and the
point lookup of the iterator is not skipped; `next` --- and likewise
`next_back` at its position `len - 1 - cursor` --- returns `None` with the
cursor unmoved, halting iteration, so the remaining keys of the snapshot
are not yielded. -/
theorem c5_deleted_key_returns_none (store : DataStore) (it : DBIter) (k : Key) :
    (it.inner.get? it.cursor = some k →
      dsGet store (it.column, k) = .ok none →
      iterNext store it = (none, it)) ∧
    (it.inner.get? (it.inner.length - 1 - it.cursor) = some k →
      dsGet store (it.column, k) = .ok none →
      iterNextBack store it = (none, it)) := by
  constructor
  · intro h1 h2
    unfold iterNext
    rw [h1]
    dsimp only
    rw [h2]
  · intro h1 h2
    unfold iterNextBack
    by_cases hz : it.inner.length = 0
    · rw [if_pos hz]
    · rw [if_neg hz]
      by_cases hc : it.inner.length - 1 < it.cursor
      · rw [if_pos hc]
      · rw [if_neg hc]
        rw [h1]
        dsimp only
        rw [h2]

/-- Witness for the amended C5 statement at the concrete scenario: the
second `next` call hits deleted key `[98]` and halts, and a `next_back`
whose position lands on `[98]` halts as well. -/
theorem c5_deleted_key_returns_none_witness :
    (iterNext c5Store (iterNext c5Store c5Iter0).2 =
      (none, (iterNext c5Store c5Iter0).2)) ∧
    iterNextBack c5Store c5IterB = (none, c5IterB) :=
  ⟨(c5_deleted_key_returns_none c5Store (iterNext c5Store c5Iter0).2 [98]).1
      (by decide) (by decide),
   (c5_deleted_key_returns_none c5Store c5IterB [98]).2
      (by decide) (by decide)⟩

/-- C7 counterexample: a segment having a `.data` file but no `.hint` sibling
makes `open` fail with an I/O error (the hint path stays
`Default::default()` and `File::open` on it fails); no fallback scan of the
data file exists anywhere in the source. -/
theorem c7_missing_hint_fails_open :
    openFromDisk c7Disk 1 = .error .ioError := by
  decide

/-- C7 amended: whenever the `.hint` file of any discovered segment is missing,
`open` fails with an I/O error; the keys of the segment are not recovered from
the data file. -/
theorem c7_missing_hint_errors (disk : List (Nat × FPair)) (newId fid : Nat)
    (fp : FPair) (hmem : (fid, fp) ∈ disk) (hnone : fp.hintF = none) :
    openFromDisk disk newId = .error .ioError := by
  have hgo : ∀ (files : List (Nat × FPair)) (kd : KeysDirT), (fid, fp) ∈ files →
      keysDirGo files kd = .error .ioError := by
    intro files
    induction files with
    | nil => intro kd hmem2; cases hmem2
    | cons hd t ih =>
      intro kd hmem2
      obtain ⟨f2, fp2⟩ := hd
      rcases List.mem_cons.mp hmem2 with heq | hmem3
      · obtain ⟨h1, h2⟩ := (Prod.mk.injEq fid fp f2 fp2).mp heq
        simp only [keysDirGo]
        rw [show fp2.hintF = none from by rw [← h2]; exact hnone]
      · simp only [keysDirGo]
        cases hf : fp2.hintF with
        | none => rfl
        | some hs => exact ih _ hmem3
  have h3 := hgo (disk ++ [(newId, emptyPair)]) [] (List.mem_append_left _ hmem)
  simp only [openFromDisk]
  rw [h3]

/-- Witness for the amended C7 statement at the concrete one-segment
directory. -/
theorem c7_missing_hint_errors_witness :
    openFromDisk c7Disk 2 = .error .ioError :=
  c7_missing_hint_errors c7Disk 2 0
    { dataF := [DataEntry.new (DEFAULT_INDEX, [97]) [1]], hintF := none }
    (by decide) rfl

/-- C9: at the `Notus` facade the empty key is special-cased asymmetrically:
`get(empty)` is always `Ok(None)`, `contains(empty)` always `Ok(false)`, and
`delete(empty)` a successful no-op, all without consulting the store; yet
`put(empty, v)` is not rejected --- afterwards the empty key is listed by
`keys()` and readable through the store-level `get` used by iteration, while
the facade `get` still answers `None`. -/
theorem c9_empty_key_asymmetry (s : DataStore) (v : Value) :
    notusGet s [] = .ok none ∧
    notusContains s [] = .ok false ∧
    notusDelete s [] = (.ok (), s) ∧
    [] ∈ dsKeys DEFAULT_INDEX (notusPut s [] v) ∧
    notusGet (notusPut s [] v) [] = .ok none ∧
    dsGet (notusPut s [] v) (DEFAULT_INDEX, []) = .ok (some v) := by
  refine ⟨rfl, rfl, rfl, ?_, rfl, ?_⟩
  · show [] ∈ mmKeys DEFAULT_INDEX
      (mmInsertIdx DEFAULT_INDEX [] .inBuffer s.keysDir)
    exact (mmKeys_insert_mem _ _ _ _ _ _).mpr (Or.inl ⟨rfl, rfl⟩)
  · exact dsGet_of_buffer _ _ _ (aLookup_aInsert_self _ _ _)

/-! ### Claims about `get` and `delete` -/

/-- C4: `get(K)` returns the buffered value when `K` is buffered; otherwise,
when the keydir maps `K` to `Persisted(f, off)` and segment `f` holds a
record at `off`, it returns the value of that record, failing with `Corrupt`
exactly when the stored CRC differs from the recomputed one; otherwise (no
keydir entry, or an `InBuffer` marker with an empty buffer slot) it returns
`None`. -/
theorem c4_get_cases (s : DataStore) (c : Column) (k : Key) :
    (∀ v, aLookup (c, k) s.buffer = some v → dsGet s (c, k) = .ok (some v)) ∧
    (aLookup (c, k) s.buffer = none →
      ∀ kde fp e, mmGetEntry c k s.keysDir = some kde →
        aLookup kde.fileId s.filesDir = some fp →
        fp.dataF.get? kde.pos = some e →
        dsGet s (c, k) =
          if checkCrc e then .ok (some e.value) else .error .corruptValue) ∧
    (aLookup (c, k) s.buffer = none → mmGetEntry c k s.keysDir = none →
      dsGet s (c, k) = .ok none) := by
  refine ⟨?_, ?_, ?_⟩
  · intro v h
    exact dsGet_of_buffer _ _ _ h
  · intro h1 kde fp e h2 h3 h4
    exact dsGet_of_entry _ _ _ _ _ h1 h2 h3 h4
  · intro h1 h2
    exact dsGet_of_no_entry _ _ h1 h2

/-- Witness for C4 on the persisted branch: the record is read back through
the keydir entry and its CRC check passes. -/
theorem c4_get_cases_witness :
    dsGet c4Store (DEFAULT_INDEX, [97]) = .ok (some [5]) := by
  have h := (c4_get_cases c4Store DEFAULT_INDEX [97]).2.1 (by decide)
    ⟨0, rkSize (DEFAULT_INDEX, [97]), 1, 0⟩
    { dataF := [DataEntry.new (DEFAULT_INDEX, [97]) [5]],
      hintF := some [HintEntry.live (DEFAULT_INDEX, [97]) [5] 0] }
    (DataEntry.new (DEFAULT_INDEX, [97]) [5])
    (by decide) (by decide) (by decide)
  rw [h]
  decide

theorem aRemove_eq_of_not_mem {α β : Type} [DecidableEq α] (k : α)
    (l : List (α × β)) (h : k ∉ l.map Prod.fst) : aRemove k l = l := by
  induction l with
  | nil => rfl
  | cons hd t ih =>
    obtain ⟨k2, v2⟩ := hd
    simp only [List.map_cons, List.mem_cons, not_or] at h
    have hne : ¬ k2 = k := fun he => h.1 (Eq.symm he)
    simp only [aRemove, if_neg hne]
    rw [ih h.2]

theorem kRemove_eq_of_not_mem {β : Type} (k : Key) (l : List (Key × β))
    (h : k ∉ l.map Prod.fst) : kRemove k l = l := by
  induction l with
  | nil => rfl
  | cons hd t ih =>
    obtain ⟨k2, v2⟩ := hd
    simp only [List.map_cons, List.mem_cons, not_or] at h
    have hne : ¬ k2 = k := fun he => h.1 (Eq.symm he)
    simp only [kRemove, if_neg hne]
    rw [ih h.2]

theorem mmRemove_eq_of_not_contains (c : Column) (k : Key) (m : KeysDirT)
    (h : mmContains c k m = false) : mmRemove c k m = m := by
  induction m with
  | nil => rfl
  | cons hd t ih =>
    obtain ⟨c2, im⟩ := hd
    by_cases hc : c2 = c
    · subst hc
      have hlc : lookupColumn c2 ((c2, im) :: t) = some im := by
        simp [lookupColumn]
      have h2 : (kLookup k im).isSome = false := by
        unfold mmContains at h
        rw [hlc] at h
        exact h
      have hk : kLookup k im = none := by
        cases hkk : kLookup k im with
        | none => rfl
        | some x => rw [hkk] at h2; cases h2
      have hstep : mmRemove c2 k ((c2, im) :: t) = (c2, kRemove k im) :: t := by
        simp [mmRemove]
      rw [hstep, kRemove_eq_of_not_mem _ _ ((kLookup_eq_none_iff _ _).mp hk)]
    · have hlc : lookupColumn c ((c2, im) :: t) = lookupColumn c t := by
        simp [lookupColumn, hc]
      have ht : mmContains c k t = false := by
        unfold mmContains at h ⊢
        rw [hlc] at h
        exact h
      have hstep : mmRemove c k ((c2, im) :: t) = (c2, im) :: mmRemove c k t := by
        simp [mmRemove, hc]
      rw [hstep, ih ht]

/-- C6: deleting a key that is neither buffered nor in the keydir returns
success and leaves the buffer and keydir unchanged (only a tombstone hint is
appended to the active segment, as the source always does). -/
theorem c6_delete_missing_ok (s : DataStore) (rk : RKey)
    (h1 : aLookup rk s.buffer = none)
    (h2 : mmContains rk.1 rk.2 s.keysDir = false) :
    (dsDelete s rk).1 = .ok () ∧
    (dsDelete s rk).2.buffer = s.buffer ∧
    (dsDelete s rk).2.keysDir = s.keysDir := by
  refine ⟨rfl, ?_, ?_⟩
  · show (aRemove rk s.buffer) = s.buffer
    exact aRemove_eq_of_not_mem _ _ ((aLookup_eq_none_iff _ _).mp h1)
  · show mmRemove rk.1 rk.2 s.keysDir = s.keysDir
    exact mmRemove_eq_of_not_contains _ _ _ h2

/-- Witness for C6: deleting `[7]` from a fresh empty store succeeds and is
observably a no-op. -/
theorem c6_delete_missing_ok_witness :
    (dsDelete fresh0 (DEFAULT_INDEX, [7])).1 = .ok () ∧
    (dsDelete fresh0 (DEFAULT_INDEX, [7])).2.buffer = fresh0.buffer ∧
    (dsDelete fresh0 (DEFAULT_INDEX, [7])).2.keysDir = fresh0.keysDir :=
  c6_delete_missing_ok fresh0 (DEFAULT_INDEX, [7]) (by decide) (by decide)

/-! ### The prefix scan -/

theorem keyLtb_isPrefixOf_false {p k : Key} (h : keyLtb k p = true) :
    p.isPrefixOf k = false := by
  cases hq : p.isPrefixOf k with
  | false => rfl
  | true =>
    have h2 := isPrefix_keyLtb p k (List.isPrefixOf_iff_prefix.mp hq)
    rw [h2] at h
    cases h

theorem takeWhile_eq_filter_sorted (p : Key) :
    ∀ (l : List (Key × Index)), sortedK l →
      (∀ e ∈ l, keyLtb e.1 p = false) →
      (l.takeWhile (fun e => p.isPrefixOf e.1)).map Prod.fst =
        (l.map Prod.fst).filter (fun k2 => p.isPrefixOf k2) := by
  intro l
  induction l with
  | nil => intro _ _; rfl
  | cons hd t ih =>
    intro hs hge
    obtain ⟨k1, i1⟩ := hd
    obtain ⟨hhead, ht⟩ := List.pairwise_cons.mp hs
    cases hq : (p.isPrefixOf k1 : Bool) with
    | true =>
      rw [List.takeWhile_cons_of_pos (by simpa using hq),
        List.map_cons, List.map_cons,
        List.filter_cons_of_pos (by simpa using hq)]
      rw [ih ht (fun e he => hge e (List.mem_cons_of_mem _ he))]
    | false =>
      rw [List.takeWhile_cons_of_neg (by simp [hq]),
        List.map_cons, List.filter_cons_of_neg (by simp [hq])]
      have hall : ∀ k2 ∈ t.map Prod.fst, ¬ (p.isPrefixOf k2 = true) := by
        intro k2 hk2 hpk
        obtain ⟨e, he, hee⟩ := List.mem_map.mp hk2
        have hlt1 : keyLtb k2 k1 = true := by
          refine keyLtb_sandwich p k1 k2 (hge (k1, i1) (by simp)) ?_
            (List.isPrefixOf_iff_prefix.mp hpk)
          intro hpre
          rw [(List.isPrefixOf_iff_prefix.mpr hpre : p.isPrefixOf k1 = true)] at hq
          cases hq
        have hlt2 := hhead e he
        rw [hee] at hlt2
        have := keyLtb_asymm hlt2
        rw [this] at hlt1
        cases hlt1
      rw [List.filter_eq_nil_iff.mpr hall]
      rfl

theorem sorted_scan_eq_filter (p : Key) :
    ∀ (im : List (Key × Index)), sortedK im →
      ((im.dropWhile (fun e => keyLtb e.1 p)).takeWhile
        (fun e => p.isPrefixOf e.1)).map Prod.fst =
        (im.map Prod.fst).filter (fun k2 => p.isPrefixOf k2) := by
  intro im
  induction im with
  | nil => intro _; rfl
  | cons hd t ih =>
    intro hs
    obtain ⟨k1, i1⟩ := hd
    obtain ⟨hhead, ht⟩ := List.pairwise_cons.mp hs
    cases hlt : keyLtb k1 p with
    | true =>
      rw [List.dropWhile_cons_of_pos (by simpa using hlt), List.map_cons,
        List.filter_cons_of_neg (by simp [keyLtb_isPrefixOf_false hlt])]
      exact ih ht
    | false =>
      rw [List.dropWhile_cons_of_neg (by simp [hlt])]
      refine takeWhile_eq_filter_sorted p ((k1, i1) :: t) hs ?_
      intro e he
      rcases List.mem_cons.mp he with rfl | he2
      · exact hlt
      · cases hep : keyLtb e.1 p with
        | false => rfl
        | true =>
          have h3 := keyLtb_trans k1 e.1 p (hhead e he2) hep
          rw [h3] at hlt
          cases hlt

/-- C8: for every byte-sequence `p` and every (sorted, as the `BTreeMap`
always is) keydir contents, the `range(p..)` scan combined with take-while on
a byte-wise `starts_with` match returns exactly the keys that start with `p`,
in ascending lexicographic byte order. -/
theorem c8_pfx_exact (c : Column) (p : Key) (m : KeysDirT) (k : Key) (h : MMWF m) :
    (k ∈ mmPfx c p m ↔ k ∈ mmKeys c m ∧ p <+: k) ∧
    (mmPfx c p m).Pairwise (fun a b => keyLtb a b = true) := by
  have heq : mmPfx c p m = (mmKeys c m).filter (fun k2 => p.isPrefixOf k2) := by
    rw [mmKeys_eq]
    unfold mmPfx
    cases hlc : lookupColumn c m with
    | none => simp
    | some im =>
      simp only [Option.getD_some]
      exact sorted_scan_eq_filter p im (h c im hlc)
  rw [heq]
  constructor
  · simp [List.mem_filter, List.isPrefixOf_iff_prefix]
  · exact List.Pairwise.filter _ (mmKeys_sorted c m h)

theorem c8Map_wf : MMWF c8Map := by
  intro c im hlc
  simp only [c8Map, lookupColumn] at hlc
  split at hlc
  · cases hlc
    unfold sortedK
    decide
  · cases hlc

/-- Witness for C8 at a concrete keydir: the scan for prefix `[1]` is exact
and sorted. -/
theorem c8_pfx_exact_witness :
    ([1, 2] ∈ mmPfx DEFAULT_INDEX [1] c8Map ↔
      [1, 2] ∈ mmKeys DEFAULT_INDEX c8Map ∧ [1] <+: [1, 2]) ∧
    (mmPfx DEFAULT_INDEX [1] c8Map).Pairwise (fun a b => keyLtb a b = true) :=
  c8_pfx_exact DEFAULT_INDEX [1] c8Map [1, 2] c8Map_wf

/-! ### Column isolation -/

theorem mmKeys_congr {c : Column} {m1 m2 : KeysDirT}
    (h : lookupColumn c m1 = lookupColumn c m2) : mmKeys c m1 = mmKeys c m2 := by
  rw [mmKeys_eq, mmKeys_eq, h]

theorem mmContains_congr {c : Column} {k : Key} {m1 m2 : KeysDirT}
    (h : lookupColumn c m1 = lookupColumn c m2) :
    mmContains c k m1 = mmContains c k m2 := by
  rw [mmContains_eq, mmContains_eq, h]

theorem mmGetEntry_congr {c : Column} {k : Key} {m1 m2 : KeysDirT}
    (h : lookupColumn c m1 = lookupColumn c m2) :
    mmGetEntry c k m1 = mmGetEntry c k m2 := by
  rw [mmGetEntry_eq, mmGetEntry_eq, h]

theorem mmPfx_congr {c : Column} {p : Key} {m1 m2 : KeysDirT}
    (h : lookupColumn c m1 = lookupColumn c m2) : mmPfx c p m1 = mmPfx c p m2 := by
  unfold mmPfx
  rw [h]

theorem mmRange_congr {c : Column} {lo hi : Key} {m1 m2 : KeysDirT}
    (h : lookupColumn c m1 = lookupColumn c m2) :
    mmRange c lo hi m1 = mmRange c lo hi m2 := by
  unfold mmRange
  rw [h]

theorem aLookup_aUpdate_dataF (fid aid : Nat) (f : FPair → FPair)
    (hdf : ∀ fp, (f fp).dataF = fp.dataF) (l : List (Nat × FPair)) :
    (aLookup fid (aUpdate aid f l)).map FPair.dataF =
      (aLookup fid l).map FPair.dataF := by
  by_cases h : fid = aid
  · subst h
    rw [aLookup_aUpdate_self]
    cases aLookup fid l <;> simp [hdf]
  · rw [aLookup_aUpdate_ne _ _ h]

theorem dsGet_congr (s s2 : DataStore) (rk : RKey)
    (hb : aLookup rk s2.buffer = aLookup rk s.buffer)
    (hk : mmGetEntry rk.1 rk.2 s2.keysDir = mmGetEntry rk.1 rk.2 s.keysDir)
    (hf : ∀ fid, (aLookup fid s2.filesDir).map FPair.dataF =
      (aLookup fid s.filesDir).map FPair.dataF) :
    dsGet s2 rk = dsGet s rk := by
  cases hbv : aLookup rk s.buffer with
  | some v =>
    rw [dsGet_of_buffer s rk v hbv, dsGet_of_buffer s2 rk v (by rw [hb, hbv])]
  | none =>
    have hb2 : aLookup rk s2.buffer = none := by rw [hb, hbv]
    cases hkv : mmGetEntry rk.1 rk.2 s.keysDir with
    | none =>
      rw [dsGet_of_no_entry s rk hbv hkv,
        dsGet_of_no_entry s2 rk hb2 (by rw [hk, hkv])]
    | some kde =>
      have hk2 : mmGetEntry rk.1 rk.2 s2.keysDir = some kde := by rw [hk, hkv]
      have h2 := hf kde.fileId
      cases h3 : aLookup kde.fileId s.filesDir with
      | none =>
        have h4 : aLookup kde.fileId s2.filesDir = none := by
          rw [h3] at h2
          cases h5 : aLookup kde.fileId s2.filesDir with
          | none => rfl
          | some fp => rw [h5] at h2; cases h2
        rw [dsGet_of_entry_no_file s rk kde hbv hkv h3,
          dsGet_of_entry_no_file s2 rk kde hb2 hk2 h4]
      | some fp =>
        rw [h3] at h2
        cases h5 : aLookup kde.fileId s2.filesDir with
        | none => rw [h5] at h2; cases h2
        | some fp2 =>
          rw [h5] at h2
          have hdf : fp2.dataF = fp.dataF := by
            simpa using h2
          cases h6 : fp.dataF.get? kde.pos with
          | none =>
            rw [dsGet_of_entry_no_record s rk kde fp hbv hkv h3 h6,
              dsGet_of_entry_no_record s2 rk kde fp2 hb2 hk2 h5 (by rw [hdf, h6])]
          | some e =>
            rw [dsGet_of_entry s rk kde fp e hbv hkv h3 h6,
              dsGet_of_entry s2 rk kde fp2 e hb2 hk2 h5 (by rw [hdf, h6])]

theorem dsContains_congr (s s2 : DataStore) (rk : RKey)
    (hb : aLookup rk s2.buffer = aLookup rk s.buffer)
    (hk : mmContains rk.1 rk.2 s2.keysDir = mmContains rk.1 rk.2 s.keysDir) :
    dsContains s2 rk = dsContains s rk := by
  unfold dsContains
  rw [hb, hk]

/-- C10: column namespaces are isolated --- a put or delete under column
`c1` leaves `get`, `contains`, `keys`, `range` and the prefix scan under any
other column `c2` unchanged. -/
theorem c10_column_isolation (s : DataStore) (c1 c2 : Column) (k k2 p lo hi : Key)
    (v : Value) (h : c1 ≠ c2) :
    (dsGet (dsPut s (c1, k) v) (c2, k2) = dsGet s (c2, k2) ∧
     dsContains (dsPut s (c1, k) v) (c2, k2) = dsContains s (c2, k2) ∧
     dsKeys c2 (dsPut s (c1, k) v) = dsKeys c2 s ∧
     dsRange c2 lo hi (dsPut s (c1, k) v) = dsRange c2 lo hi s ∧
     dsPfx c2 p (dsPut s (c1, k) v) = dsPfx c2 p s) ∧
    (dsGet ((dsDelete s (c1, k)).2) (c2, k2) = dsGet s (c2, k2) ∧
     dsContains ((dsDelete s (c1, k)).2) (c2, k2) = dsContains s (c2, k2) ∧
     dsKeys c2 ((dsDelete s (c1, k)).2) = dsKeys c2 s ∧
     dsRange c2 lo hi ((dsDelete s (c1, k)).2) = dsRange c2 lo hi s ∧
     dsPfx c2 p ((dsDelete s (c1, k)).2) = dsPfx c2 p s) := by
  have hne : ((c2, k2) : RKey) ≠ (c1, k) := by
    intro he
    exact h (congrArg Prod.fst he).symm
  constructor
  · have hlc : lookupColumn c2 (dsPut s (c1, k) v).keysDir =
        lookupColumn c2 s.keysDir :=
      lookupColumn_mmInsert_ne _ _ _ (Ne.symm h)
    refine ⟨?_, ?_, ?_, ?_, ?_⟩
    · exact dsGet_congr s _ (c2, k2) (aLookup_aInsert_ne _ _ hne)
        (mmGetEntry_congr hlc) (fun fid => rfl)
    · exact dsContains_congr s _ (c2, k2) (aLookup_aInsert_ne _ _ hne)
        (mmContains_congr hlc)
    · exact mmKeys_congr hlc
    · exact mmRange_congr hlc
    · exact mmPfx_congr hlc
  · have hlc : lookupColumn c2 ((dsDelete s (c1, k)).2).keysDir =
        lookupColumn c2 s.keysDir :=
      lookupColumn_mmRemove_ne _ _ (Ne.symm h)
    refine ⟨?_, ?_, ?_, ?_, ?_⟩
    · exact dsGet_congr s _ (c2, k2) (aLookup_aRemove_ne _ hne)
        (mmGetEntry_congr hlc)
        (fun fid => aLookup_aUpdate_dataF fid s.activeId (fpAppendHint (HintEntry.tomb (c1, k))) (fun fp => rfl) s.filesDir)
    · exact dsContains_congr s _ (c2, k2) (aLookup_aRemove_ne _ hne)
        (mmContains_congr hlc)
    · exact mmKeys_congr hlc
    · exact mmRange_congr hlc
    · exact mmPfx_congr hlc

/-- Witness for C10 at a concrete store: operations under column "logs" do
not disturb column "default". -/
theorem c10_column_isolation_witness :
    (dsGet (dsPut c5Pre ("logs", [4]) [9]) (DEFAULT_INDEX, [97]) =
       dsGet c5Pre (DEFAULT_INDEX, [97]) ∧
     dsContains (dsPut c5Pre ("logs", [4]) [9]) (DEFAULT_INDEX, [97]) =
       dsContains c5Pre (DEFAULT_INDEX, [97]) ∧
     dsKeys DEFAULT_INDEX (dsPut c5Pre ("logs", [4]) [9]) =
       dsKeys DEFAULT_INDEX c5Pre ∧
     dsRange DEFAULT_INDEX [90] [99] (dsPut c5Pre ("logs", [4]) [9]) =
       dsRange DEFAULT_INDEX [90] [99] c5Pre ∧
     dsPfx DEFAULT_INDEX [9] (dsPut c5Pre ("logs", [4]) [9]) =
       dsPfx DEFAULT_INDEX [9] c5Pre) ∧
    (dsGet ((dsDelete c5Pre ("logs", [4])).2) (DEFAULT_INDEX, [97]) =
       dsGet c5Pre (DEFAULT_INDEX, [97]) ∧
     dsContains ((dsDelete c5Pre ("logs", [4])).2) (DEFAULT_INDEX, [97]) =
       dsContains c5Pre (DEFAULT_INDEX, [97]) ∧
     dsKeys DEFAULT_INDEX ((dsDelete c5Pre ("logs", [4])).2) =
       dsKeys DEFAULT_INDEX c5Pre ∧
     dsRange DEFAULT_INDEX [90] [99] ((dsDelete c5Pre ("logs", [4])).2) =
       dsRange DEFAULT_INDEX [90] [99] c5Pre ∧
     dsPfx DEFAULT_INDEX [9] ((dsDelete c5Pre ("logs", [4])).2) =
       dsPfx DEFAULT_INDEX [9] c5Pre) :=
  c10_column_isolation c5Pre ("logs") DEFAULT_INDEX [4] [97] [9] [90] [99] [9]
    (by decide)
